/-
Verification of the MWIS-on-series-parallel-composition core.

The source is a C++ program that
  * parses a nested-parenthesis description of a series-parallel
    composition tree (`read_tree`), threading a running `next_vertex`
    maximum through every recursive call,
  * normalizes the tree (`toNiceTree`, currently a structural identity),
  * materializes an adjacency-list graph (`build_graph`, one undirected
    edge per `leaf` node),
  * runs a rooted two-state dynamic program (`dp_solve`) and a
    backtracking pass (`backtrack`) inside `solve_mwis`.

Embedding conventions:
  * C++ `vector<T>` indexing `v[i]` is modelled by `List.getD` with the
    element type's zero/default value; `v[i] = x` by `List.set`.  The
    claims under verification only exercise in-range accesses.
  * C++ `int` arithmetic on weights and DP values is modelled by
    unbounded `Int`; signed overflow (undefined behaviour in C++) is
    outside the scope of the claims.
  * The recursive functions `read_tree`, `dp_solve` and `backtrack` are
    given an explicit fuel argument; running out of fuel yields `none`
    (in the C++ source, `dp_solve` terminates because of the `visited`
    guard, while `backtrack` recursion is governed by the choice table).
-/
import Mathlib

namespace MWIS

/-- `vector<int>` read `w[i]`, defaulting like a zero-initialized entry. -/
def getI (l : List Int) (i : Nat) : Int := l.getD i 0

/-- `vector<bool>` read `b[i]`. -/
def getB (l : List Bool) (i : Nat) : Bool := l.getD i false

/-- `vector<vector<int>>` read `adj[i]`. -/
def getL (l : List (List Nat)) (i : Nat) : List Nat := l.getD i []

/-- read of a `dp_choice` row: the pair (`dp_choice[i][0]`, `dp_choice[i][1]`). -/
def getC (l : List (Bool × Bool)) (i : Nat) : Bool × Bool := l.getD i (false, false)

theorem getD_set_self {α : Type} (l : List α) (i : Nat) (x d : α)
    (h : i < l.length) : (l.set i x).getD i d = x := by
  simp [List.getD_eq_getElem?_getD, List.getElem?_set_self h]

theorem getD_set_ne {α : Type} (l : List α) (i j : Nat) (x d : α)
    (h : i ≠ j) : (l.set i x).getD j d = l.getD j d := by
  simp [List.getD_eq_getElem?_getD, List.getElem?_set_ne h]

theorem getD_replicate {α : Type} (n i : Nat) (d : α) :
    (List.replicate n d).getD i d = d := by
  rcases Nat.lt_or_ge i n with h | h
  · simp [List.getD_eq_getElem?_getD, List.getElem?_replicate, h]
  · have hlen : (List.replicate n d).length ≤ i := by simpa using h
    simp [List.getD_eq_getElem?_getD, List.getElem?_eq_none hlen]

/-- The composition-tree type: `leaf{x,y}`, `parallel{a,b,left,right}`,
`series{a,b,c,left,right}`, exactly the three concrete subclasses of
`my_tree_base` in the source. -/
inductive my_tree_base : Type where
  | leaf (x y : Nat)
  | parallel (a b : Nat) (left right : my_tree_base)
  | series (a b c : Nat) (left right : my_tree_base)
deriving DecidableEq

/-- `build_graph`: each `leaf{x,y}` appends `y` to `adj[x]` and `x` to
`adj[y]`; `parallel`/`series` recurse left then right.  (The C++
`int& next_vertex` parameter is never read or written by any
`build_graph` implementation, so it is omitted.) -/
def build_graph : my_tree_base → List (List Nat) → List (List Nat)
  | .leaf x y, adj =>
      let adj1 := adj.set x (getL adj x ++ [y])
      adj1.set y (getL adj1 y ++ [x])
  | .parallel _ _ l r, adj => build_graph r (build_graph l adj)
  | .series _ _ _ l r, adj => build_graph r (build_graph l adj)

/-- `toNiceTree`: the leaf case returns the node unchanged; the
`parallel`/`series` cases rebuild the node around the recursively
transformed children (the C++ mutates the children pointers in place and
returns the same node). -/
def toNiceTree : my_tree_base → my_tree_base
  | .leaf x y => .leaf x y
  | .parallel a b l r => .parallel a b (toNiceTree l) (toNiceTree r)
  | .series a b c l r => .series a b c (toNiceTree l) (toNiceTree r)

theorem toNiceTree_eq_id (t : my_tree_base) : toNiceTree t = t := by
  induction t with
  | leaf x y => rfl
  | parallel a b l r ihl ihr => simp [toNiceTree, ihl, ihr]
  | series a b c l r ihl ihr => simp [toNiceTree, ihl, ihr]

/-- C9: `toNiceTree` is a structural identity — its output is the very
same tree as its input (hence has the same leaf/parallel/series shape),
and materializing the output yields the same adjacency list as
materializing the input. -/
theorem c9_toNiceTree_identity (t : my_tree_base) (adj : List (List Nat)) :
    toNiceTree t = t ∧ build_graph (toNiceTree t) adj = build_graph t adj := by
  refine ⟨toNiceTree_eq_id t, ?_⟩
  rw [toNiceTree_eq_id t]

/-! ### The parser `read_tree`

The C++ parser reads from an `istream` with `in >> c` (one non-space
character) and `in >> x` (one integer).  We model the already-tokenized
stream as a list of tokens, a character token for each single-character
read and a numeric token for each integer read; `read_char` / `read_int`
fail when the head of the stream is not of the requested kind (in C++
such a mismatch only arises on ill-formed input, where the claims do not
apply).  A null child returned by a recursive call cannot be stored in
the inductive tree type, so a null child makes the surrounding parse
yield `none` as well; the claims concern well-formed descriptions (C8)
and the immediately failing expression itself (C10), where this
difference is invisible. -/

inductive Tok : Type where
  | ch (c : Char)
  | num (n : Nat)
deriving DecidableEq

/-- `in >> c`: read one character token. -/
def read_char : List Tok → Option (Char × List Tok)
  | .ch c :: rest => some (c, rest)
  | _ => none

/-- `in >> x`: read one integer token. -/
def read_int : List Tok → Option (Nat × List Tok)
  | .num n :: rest => some (n, rest)
  | _ => none

/-- `read_tree(istream& in, int& next_vertex)`: returns the parsed node,
the remaining stream and the updated `next_vertex`.  After the two (`L`),
resp. the children (`P`/`S`), one further character is read and
discarded without being checked (the C++ `in >> c` for the closing
parenthesis).  A tag other than `L`/`P`/`S` falls through to
`return nullptr`, i.e. `none`. -/
def read_tree : Nat → List Tok → Nat → Option (my_tree_base × List Tok × Nat)
  | 0, _, _ => none
  | fuel+1, toks, next_vertex => do
    let (c, t1) ← read_char toks
    if c = '(' then
      let (c2, t2) ← read_char t1
      if c2 = 'L' then
        let (x, t3) ← read_int t2
        let (y, t4) ← read_int t3
        let (_, t5) ← read_char t4
        pure (.leaf x y, t5, max next_vertex (max x y + 1))
      else if c2 = 'P' then
        let (a, t3) ← read_int t2
        let (b, t4) ← read_int t3
        let (l, t5, nv1) ← read_tree fuel t4 next_vertex
        let (r, t6, nv2) ← read_tree fuel t5 nv1
        let (_, t7) ← read_char t6
        pure (.parallel a b l r, t7, max nv2 (max a b + 1))
      else if c2 = 'S' then
        let (a, t3) ← read_int t2
        let (b, t4) ← read_int t3
        let (cc, t5) ← read_int t4
        let (l, t6, nv1) ← read_tree fuel t5 next_vertex
        let (r, t7, nv2) ← read_tree fuel t6 nv1
        let (_, t8) ← read_char t7
        pure (.series a b cc l r, t8, max nv2 (max a (max b cc) + 1))
      else none
    else none

/-- One unfolding step of `read_tree` after `'('` and a tag character
have been read. -/
theorem read_tree_tag (fuel : Nat) (c : Char) (toks : List Tok) (nv : Nat) :
    read_tree (fuel+1) (Tok.ch '(' :: Tok.ch c :: toks) nv =
      (if c = 'L' then do
        let (x, t3) ← read_int toks
        let (y, t4) ← read_int t3
        let (_, t5) ← read_char t4
        pure (my_tree_base.leaf x y, t5, max nv (max x y + 1))
      else if c = 'P' then do
        let (a, t3) ← read_int toks
        let (b, t4) ← read_int t3
        let (l, t5, nv1) ← read_tree fuel t4 nv
        let (r, t6, nv2) ← read_tree fuel t5 nv1
        let (_, t7) ← read_char t6
        pure (my_tree_base.parallel a b l r, t7, max nv2 (max a b + 1))
      else if c = 'S' then do
        let (a, t3) ← read_int toks
        let (b, t4) ← read_int t3
        let (cc, t5) ← read_int t4
        let (l, t6, nv1) ← read_tree fuel t5 nv
        let (r, t7, nv2) ← read_tree fuel t6 nv1
        let (_, t8) ← read_char t7
        pure (my_tree_base.series a b cc l r, t8, max nv2 (max a (max b cc) + 1))
      else none) := rfl

theorem read_tree_leaf (fuel x y : Nat) (rest : List Tok) (nv : Nat) :
    read_tree (fuel+1)
        (Tok.ch '(' :: Tok.ch 'L' :: Tok.num x :: Tok.num y :: Tok.ch ')' :: rest) nv =
      some (.leaf x y, rest, max nv (max x y + 1)) := rfl

theorem read_tree_P (fuel a b : Nat) (rest : List Tok) (nv : Nat) :
    read_tree (fuel+1) (Tok.ch '(' :: Tok.ch 'P' :: Tok.num a :: Tok.num b :: rest) nv =
      (do
        let (l, t5, nv1) ← read_tree fuel rest nv
        let (r, t6, nv2) ← read_tree fuel t5 nv1
        let (_, t7) ← read_char t6
        pure (my_tree_base.parallel a b l r, t7, max nv2 (max a b + 1))) := rfl

theorem read_tree_S (fuel a b c : Nat) (rest : List Tok) (nv : Nat) :
    read_tree (fuel+1)
        (Tok.ch '(' :: Tok.ch 'S' :: Tok.num a :: Tok.num b :: Tok.num c :: rest) nv =
      (do
        let (l, t6, nv1) ← read_tree fuel rest nv
        let (r, t7, nv2) ← read_tree fuel t6 nv1
        let (_, t8) ← read_char t7
        pure (my_tree_base.series a b c l r, t8, max nv2 (max a (max b c) + 1))) := rfl

/-- The canonical token stream describing a tree: the well-formed
descriptions of the grammar
`node := '(' ('L' x y | 'P' a b node node | 'S' a b c node node) ')'`. -/
def encode : my_tree_base → List Tok
  | .leaf x y => [.ch '(', .ch 'L', .num x, .num y, .ch ')']
  | .parallel a b l r =>
      [.ch '(', .ch 'P', .num a, .num b] ++ encode l ++ encode r ++ [.ch ')']
  | .series a b c l r =>
      [.ch '(', .ch 'S', .num a, .num b, .num c] ++ encode l ++ encode r ++ [.ch ')']

/-- The maximum of all vertex ids appearing anywhere in the tree,
including the `a`/`b` headers of `parallel` nodes and the `a`/`b`/`c`
headers of `series` nodes. -/
def maxid : my_tree_base → Nat
  | .leaf x y => max x y
  | .parallel a b l r => max (max a b) (max (maxid l) (maxid r))
  | .series a b c l r => max (max a (max b c)) (max (maxid l) (maxid r))

/-- Height of a tree, used to bound the fuel the parser needs. -/
def ht : my_tree_base → Nat
  | .leaf _ _ => 0
  | .parallel _ _ l r => 1 + max (ht l) (ht r)
  | .series _ _ _ l r => 1 + max (ht l) (ht r)

theorem read_tree_encode (t : my_tree_base) :
    ∀ fuel, ht t < fuel → ∀ toks nv,
      read_tree fuel (encode t ++ toks) nv = some (t, toks, max nv (maxid t + 1)) := by
  induction t with
  | leaf x y =>
    intro fuel hfuel toks nv
    match fuel, hfuel with
    | fuel+1, _ =>
      simp only [encode, List.cons_append, List.nil_append]
      rw [read_tree_leaf]
      simp [maxid]
  | parallel a b l r ihl ihr =>
    intro fuel hfuel toks nv
    match fuel, hfuel with
    | fuel+1, hfuel =>
      simp only [ht] at hfuel
      have hl : ht l < fuel := by
        have := Nat.le_max_left (ht l) (ht r)
        omega
      have hr : ht r < fuel := by
        have := Nat.le_max_right (ht l) (ht r)
        omega
      have el := ihl fuel hl (encode r ++ [Tok.ch ')'] ++ toks) nv
      have er := ihr fuel hr ([Tok.ch ')'] ++ toks) (max nv (maxid l + 1))
      simp only [List.cons_append, List.append_assoc, List.nil_append] at el er
      simp only [encode, List.cons_append, List.append_assoc, List.nil_append]
      rw [read_tree_P, el]
      simp only [Option.bind_eq_bind, Option.some_bind]
      rw [er]
      simp only [Option.some_bind, read_char]
      simp [maxid]
      omega
  | series a b c l r ihl ihr =>
    intro fuel hfuel toks nv
    match fuel, hfuel with
    | fuel+1, hfuel =>
      simp only [ht] at hfuel
      have hl : ht l < fuel := by
        have := Nat.le_max_left (ht l) (ht r)
        omega
      have hr : ht r < fuel := by
        have := Nat.le_max_right (ht l) (ht r)
        omega
      have el := ihl fuel hl (encode r ++ [Tok.ch ')'] ++ toks) nv
      have er := ihr fuel hr ([Tok.ch ')'] ++ toks) (max nv (maxid l + 1))
      simp only [List.cons_append, List.append_assoc, List.nil_append] at el er
      simp only [encode, List.cons_append, List.append_assoc, List.nil_append]
      rw [read_tree_S, el]
      simp only [Option.bind_eq_bind, Option.some_bind]
      rw [er]
      simp only [Option.some_bind, read_char]
      simp [maxid]
      omega

/-- C8: parsing the well-formed description of any composition tree with
the initial `next_vertex = 0` (as in `main`) yields the tree itself and
a vertex count equal to `1 + ` the maximum of all vertex ids appearing
anywhere in the tree — headers of `parallel`/`series` nodes included,
not only the leaf endpoints. -/
theorem c8_parser_vertex_count (t : my_tree_base) (fuel : Nat) (h : ht t < fuel) :
    read_tree fuel (encode t) 0 = some (t, [], 1 + maxid t) := by
  have := read_tree_encode t fuel h [] 0
  simpa [Nat.add_comm] using this

/-- Witness for C8 at the series example `(S 0 1 2 (L 0 1) (L 1 2))`. -/
theorem c8_witness :
    ht (my_tree_base.series 0 1 2 (my_tree_base.leaf 0 1) (my_tree_base.leaf 1 2)) < 2 ∧
    read_tree 2
      (encode (my_tree_base.series 0 1 2 (my_tree_base.leaf 0 1) (my_tree_base.leaf 1 2))) 0 =
      some (my_tree_base.series 0 1 2 (my_tree_base.leaf 0 1) (my_tree_base.leaf 1 2), [], 3) :=
  ⟨by decide,
   c8_parser_vertex_count
     (my_tree_base.series 0 1 2 (my_tree_base.leaf 0 1) (my_tree_base.leaf 1 2)) 2 (by decide)⟩

/-- C10: after an opening parenthesis, a tag character other than
`L`, `P`, `S` makes `read_tree` produce no node at all (`nullptr`),
whatever the rest of the stream holds. -/
theorem c10_bad_tag (fuel : Nat) (c : Char) (toks : List Tok) (nv : Nat)
    (hL : c ≠ 'L') (hP : c ≠ 'P') (hS : c ≠ 'S') :
    read_tree fuel (Tok.ch '(' :: Tok.ch c :: toks) nv = none := by
  match fuel with
  | 0 => rfl
  | fuel+1 =>
    rw [read_tree_tag]
    simp [hL, hP, hS]

/-- Witness for C10 at the concrete tag `X`. -/
theorem c10_witness :
    ('X' ≠ 'L' ∧ 'X' ≠ 'P' ∧ 'X' ≠ 'S') ∧
    read_tree 5 [Tok.ch '(', Tok.ch 'X'] 0 = none :=
  ⟨⟨by decide, by decide, by decide⟩,
   c10_bad_tag 5 'X' [] 0 (by decide) (by decide) (by decide)⟩

/-! ### The solver `dp_solve` / `backtrack` / `solve_mwis`

`dp_solve(v, adj, weights, dp, dp_choice, visited)` carries its mutable
state — the two DP columns `dp[.][0]` / `dp[.][1]` and the `visited`
table — in a `DPState` record; `dp_choice` is passed along unchanged
because, exactly as in the source, no statement of `dp_solve` ever reads
or writes it. -/

structure DPState : Type where
  dp0 : List Int
  dp1 : List Int
  visited : List Bool
deriving DecidableEq

/-- The two `+=` updates performed for a freshly solved neighbor `u` of
`v`: `dp[v][0] += max(dp[u][0], dp[u][1]); dp[v][1] += dp[u][0]`. -/
def updChild (v u : Nat) (s : DPState) : DPState :=
  ⟨s.dp0.set v (getI s.dp0 v + max (getI s.dp0 u) (getI s.dp1 u)),
   s.dp1.set v (getI s.dp1 v + getI s.dp0 u),
   s.visited⟩

/-- The `for (int u : adj[v])` loop body of `dp_solve`: skip visited
neighbors, recursively solve unvisited ones (the recursive return value
is discarded, as in the source) and accumulate into `v`'s row. -/
def dpNeighbors (rec : Nat → DPState → Option (DPState × Int)) (v : Nat) :
    List Nat → DPState → Option DPState
  | [], s => some s
  | u :: us, s =>
    if getB s.visited u then dpNeighbors rec v us s
    else
      match rec u s with
      | none => none
      | some (s1, _) => dpNeighbors rec v us (updChild v u s1)

/-- `dp_solve`: early-return `dp[v][0]` when `v` is visited; otherwise
mark visited, initialize `dp[v][0] = 0`, `dp[v][1] = weights[v]`, run
the neighbor loop, and return `max(dp[v][0], dp[v][1])`. -/
def dp_solve : Nat → List (List Nat) → List Int → List (Bool × Bool) → Nat → DPState →
    Option (DPState × Int)
  | 0, _, _, _, _, _ => none
  | fuel+1, adj, weights, dp_choice, v, s =>
    if getB s.visited v then some (s, getI s.dp0 v)
    else
      let s0 : DPState :=
        ⟨s.dp0.set v 0, s.dp1.set v (getI weights v), s.visited.set v true⟩
      match dpNeighbors (dp_solve fuel adj weights dp_choice) v (getL adj v) s0 with
      | none => none
      | some s1 => some (s1, max (getI s1.dp0 v) (getI s1.dp1 v))

/-- The `for (int u : adj[v])` loop of `backtrack`: both branches of the
source run this same loop, recursing into neighbors with
`visited[u] && dp_choice[u][0]`; the recursive results are discarded, so
only termination (`none` = fuel exhausted) is observable. -/
def btNeighbors (rec : Nat → Option (List Nat)) (dp_choice : List (Bool × Bool))
    (visited : List Bool) : List Nat → Option Unit
  | [] => some ()
  | u :: us =>
    if getB visited u && (getC dp_choice u).1 then
      match rec u with
      | none => none
      | some _ => btNeighbors rec dp_choice visited us
    else btNeighbors rec dp_choice visited us

/-- `backtrack`: push `v` into the (locally created) result vector when
`dp_choice[v][1]` holds, then loop over the neighbors; the vectors built
by the recursive calls are discarded. -/
def backtrack : Nat → Nat → List (List Nat) → List (Bool × Bool) → List Bool →
    Option (List Nat)
  | 0, _, _, _, _ => none
  | fuel+1, v, adj, dp_choice, visited =>
    if (getC dp_choice v).2 then
      match btNeighbors (fun u => backtrack fuel u adj dp_choice visited)
          dp_choice visited (getL adj v) with
      | none => none
      | some _ => some [v]
    else
      match btNeighbors (fun u => backtrack fuel u adj dp_choice visited)
          dp_choice visited (getL adj v) with
      | none => none
      | some _ => some []

/-- The freshly allocated tables of `solve_mwis`:
`dp(n, vector<int>(2, 0))`, `visited(n, false)`. -/
def initState (n : Nat) : DPState :=
  ⟨List.replicate n 0, List.replicate n 0, List.replicate n false⟩

/-- `solve_mwis`: run `dp_solve(0, …)`, then `backtrack(0, …)`, and
return `dp[0][0]` together with the printed vertex set. -/
def solve_mwis (fuel : Nat) (adj : List (List Nat)) (weights : List Int) :
    Option (Int × List Nat) :=
  let n := adj.length
  let dp_choice : List (Bool × Bool) := List.replicate n (false, false)
  match dp_solve fuel adj weights dp_choice 0 (initState n) with
  | none => none
  | some (s, _) =>
    match backtrack fuel 0 adj dp_choice s.visited with
    | none => none
    | some verts => some (getI s.dp0 0, verts)

/-- C1 (code bug witness): on the single-edge graph `0 – 1` with weights
`[5, 3]`, `dp_solve` computes `excluded(0) = 3`, `included(0) = 5` and
returns their maximum `5`, but `solve_mwis` reports `3 = dp[0][0]`,
not `max(excluded(0), included(0)) = 5` as the claim (and the source's
own comment on its return statement) states. -/
theorem c1_solver_returns_excluded_only :
    solve_mwis 3 [[1], [0]] [5, 3] = some (3, []) ∧
    dp_solve 3 [[1], [0]] [5, 3] (List.replicate 2 (false, false)) 0 (initState 2) =
      some (⟨[3, 0], [5, 3], [true, true]⟩, 5) := by
  constructor
  · rfl
  · rfl

/-- Sum of the weights of a vertex list: `Σ weight(v) for v in S`. -/
def weightSum (weights : List Int) (vs : List Nat) : Int :=
  (vs.map (getI weights)).sum

/-- C2 (code bug witness): on the single-edge graph `0 – 1` with weights
`[5, 3]`, the solver reports optimum `3` but the backtracker produces
the empty vertex set, whose weight sum `0` differs from the reported
optimum. -/
theorem c2_backtrack_sum_mismatch :
    solve_mwis 3 [[1], [0]] [5, 3] = some (3, []) ∧
    weightSum [5, 3] [] = 0 ∧ ((0 : Int) = 3 → False) := by
  refine ⟨rfl, rfl, ?_⟩
  intro h
  exact absurd h (by decide)

/-- C4 (code bug witness): `dp_solve` never writes `dp_choice` (the
table is threaded through unchanged), so after the DP pass on the
single-edge graph with weights `[5, 3]` the table used by `backtrack`
is still all-`false`: at vertex `0`, `included(0) = 5 > 3 = excluded(0)`
yet `choice(0) = dp_choice[0][1] = false`, contradicting the claimed
characterization. -/
theorem c4_choice_never_written :
    dp_solve 3 [[1], [0]] [5, 3] (List.replicate 2 (false, false)) 0 (initState 2) =
      some (⟨[3, 0], [5, 3], [true, true]⟩, 5) ∧
    getI [5, 3] 0 = 5 ∧ (5 : Int) > 3 ∧
    (getC (List.replicate 2 (false, false)) 0).2 = false := by
  exact ⟨rfl, rfl, by decide, rfl⟩

/-- C6 (code bug witness): for the single `Leaf{0,1}` tree with weights
`[5, 3]`, the parser yields vertex count `2`, materialization yields the
single-edge adjacency list `[[1], [0]]`, and the pipeline reports
optimum `3` with empty selected set — not the claimed optimum `5` with
selected set `{0}`. -/
theorem c6_base_case_fails :
    build_graph (my_tree_base.leaf 0 1) (List.replicate 2 []) = [[1], [0]] ∧
    solve_mwis 3 (build_graph (my_tree_base.leaf 0 1) (List.replicate 2 [])) [5, 3] =
      some (3, []) ∧
    ((3 : Int) = 5 → False) := by
  refine ⟨rfl, rfl, ?_⟩
  intro h
  exact absurd h (by decide)

/-- C5: whatever the fuel, vertex, adjacency list, choice table and
visited table, a terminating run of `backtrack v` returns `[v]` when
`dp_choice[v][1]` holds and `[]` otherwise — the vectors built by the
recursive calls are discarded, so the result is always a subset of
`{v}` containing `v` exactly when `choice(v)` is true. -/
theorem c5_backtrack_subset (fuel v : Nat) (adj : List (List Nat))
    (dp_choice : List (Bool × Bool)) (visited : List Bool) (l : List Nat)
    (h : backtrack fuel v adj dp_choice visited = some l) :
    l = if (getC dp_choice v).2 then [v] else [] := by
  match fuel with
  | 0 => exact absurd h (by simp [backtrack])
  | fuel+1 =>
    unfold backtrack at h
    by_cases hc : (getC dp_choice v).2
    · simp only [hc, if_true]
      simp only [hc, if_true] at h
      rcases hbt : btNeighbors (fun u => backtrack fuel u adj dp_choice visited)
          dp_choice visited (getL adj v) with _ | u
      · rw [hbt] at h; exact absurd h (by simp)
      · rw [hbt] at h
        simpa using h.symm
    · simp only [hc, if_false]
      simp only [hc, if_false] at h
      rcases hbt : btNeighbors (fun u => backtrack fuel u adj dp_choice visited)
          dp_choice visited (getL adj v) with _ | u
      · rw [hbt] at h; exact absurd h (by simp)
      · rw [hbt] at h
        simpa using h.symm

/-- Witness for C5 at a concrete terminating run. -/
theorem c5_witness :
    backtrack 2 0 [[1], [0]] [(false, false), (false, false)] [true, true] = some [] ∧
    ([] : List Nat) =
      (if (getC [(false, false), (false, false)] 0).2 then [0] else []) :=
  ⟨rfl, c5_backtrack_subset 2 0 [[1], [0]] [(false, false), (false, false)]
    [true, true] [] rfl⟩

/-! ### Monotonicity of the DP in the weights (C7)

Raising weights pointwise can only raise both DP columns pointwise; the
traversal itself (the `visited` evolution) is weight-independent. -/

/-- Two solver states with identical `visited` tables, table lengths,
and pointwise-`≤` DP columns. -/
def StRel (s t : DPState) : Prop :=
  s.visited = t.visited ∧
  s.dp0.length = t.dp0.length ∧ s.dp1.length = t.dp1.length ∧
  (∀ i, getI s.dp0 i ≤ getI t.dp0 i) ∧ (∀ i, getI s.dp1 i ≤ getI t.dp1 i)

theorem strel_refl (s : DPState) : StRel s s :=
  ⟨rfl, rfl, rfl, fun _ => le_refl _, fun _ => le_refl _⟩

theorem getI_set_mono {l l' : List Int} (v : Nat) (x x' : Int)
    (hlen : l.length = l'.length) (hx : x ≤ x')
    (h : ∀ i, getI l i ≤ getI l' i) :
    ∀ i, getI (l.set v x) i ≤ getI (l'.set v x') i := by
  intro i
  by_cases hiv : i = v
  · subst hiv
    by_cases hr : i < l.length
    · rw [getI, getD_set_self _ _ _ _ hr, getI, getD_set_self _ _ _ _ (hlen ▸ hr)]
      exact hx
    · rw [getI, List.set_eq_of_length_le (Nat.le_of_not_lt hr),
        getI, List.set_eq_of_length_le (hlen ▸ Nat.le_of_not_lt hr)]
      exact h i
  · rw [getI, getD_set_ne _ _ _ _ _ (fun hvi => hiv hvi.symm),
      getI, getD_set_ne _ _ _ _ _ (fun hvi => hiv hvi.symm)]
    exact h i

theorem updChild_strel (v u : Nat) {s t : DPState} (h : StRel s t) :
    StRel (updChild v u s) (updChild v u t) := by
  obtain ⟨hv, h0, h1, hle0, hle1⟩ := h
  refine ⟨hv, by simpa [updChild] using h0, by simpa [updChild] using h1, ?_, ?_⟩
  · exact getI_set_mono v _ _ h0
      (add_le_add (hle0 v) (max_le_max (hle0 u) (hle1 u))) hle0
  · exact getI_set_mono v _ _ h1 (add_le_add (hle1 v) (hle0 u)) hle1

theorem dpNeighbors_mono (recA recB : Nat → DPState → Option (DPState × Int))
    (hrec : ∀ u s t, StRel s t →
      (recA u s = none → recB u t = none) ∧
      (∀ s' r, recA u s = some (s', r) →
        ∃ t' r', recB u t = some (t', r') ∧ StRel s' t' ∧ r ≤ r'))
    (v : Nat) :
    ∀ us (s t : DPState), StRel s t →
      (dpNeighbors recA v us s = none → dpNeighbors recB v us t = none) ∧
      (∀ s', dpNeighbors recA v us s = some s' →
        ∃ t', dpNeighbors recB v us t = some t' ∧ StRel s' t') := by
  intro us
  induction us with
  | nil =>
    intro s t hst
    exact ⟨fun h => by simp [dpNeighbors] at h, fun s' h => by
      refine ⟨t, rfl, ?_⟩
      have : s' = s := by simpa [dpNeighbors] using h.symm
      rw [this]; exact hst⟩
  | cons u us ih =>
    intro s t hst
    have hvis : getB s.visited u = getB t.visited u := by rw [hst.1]
    by_cases hu : getB s.visited u
    · have hu' : getB t.visited u = true := by rw [← hvis]; exact hu
      constructor
      · intro h
        simp only [dpNeighbors, hu, if_true] at h
        simp only [dpNeighbors, hu', if_true]
        exact (ih s t hst).1 h
      · intro s' h
        simp only [dpNeighbors, hu, if_true] at h
        simp only [dpNeighbors, hu', if_true]
        exact (ih s t hst).2 s' h
    · have hu' : getB t.visited u = false := by
        rw [← hvis]; exact Bool.not_eq_true _ ▸ (by simpa using hu)
      constructor
      · intro h
        simp only [dpNeighbors, hu, if_false, Bool.false_eq_true] at h
        simp only [dpNeighbors, hu', if_false, Bool.false_eq_true]
        cases hA : recA u s with
        | none =>
          rw [(hrec u s t hst).1 hA]
        | some p =>
          obtain ⟨s1, r1⟩ := p
          obtain ⟨t1, r1', hB, hst1, _⟩ := (hrec u s t hst).2 s1 r1 hA
          rw [hA] at h
          rw [hB]
          exact (ih _ _ (updChild_strel v u hst1)).1 h
      · intro s' h
        simp only [dpNeighbors, hu, if_false, Bool.false_eq_true] at h
        simp only [dpNeighbors, hu', if_false, Bool.false_eq_true]
        cases hA : recA u s with
        | none => rw [hA] at h; exact absurd h (by simp)
        | some p =>
          obtain ⟨s1, r1⟩ := p
          obtain ⟨t1, r1', hB, hst1, _⟩ := (hrec u s t hst).2 s1 r1 hA
          rw [hA] at h
          rw [hB]
          exact (ih _ _ (updChild_strel v u hst1)).2 s' h

theorem dp_solve_mono :
    ∀ (fuel : Nat) (adj : List (List Nat)) (w w' : List Int)
      (chA chB : List (Bool × Bool)) (v : Nat) (s t : DPState),
      (∀ i, getI w i ≤ getI w' i) → StRel s t →
      (dp_solve fuel adj w chA v s = none → dp_solve fuel adj w' chB v t = none) ∧
      (∀ s' r, dp_solve fuel adj w chA v s = some (s', r) →
        ∃ t' r', dp_solve fuel adj w' chB v t = some (t', r') ∧ StRel s' t' ∧ r ≤ r') := by
  intro fuel
  induction fuel with
  | zero =>
    intro adj w w' chA chB v s t _ _
    exact ⟨fun _ => rfl, fun s' r h => by exact absurd h (by simp [dp_solve])⟩
  | succ fuel ih =>
    intro adj w w' chA chB v s t hw hst
    have hvis : getB s.visited v = getB t.visited v := by rw [hst.1]
    by_cases hv : getB s.visited v
    · have hv' : getB t.visited v = true := by rw [← hvis]; exact hv
      constructor
      · intro h
        simp [dp_solve, hv] at h
      · intro s' r h
        simp only [dp_solve, hv, hv', if_true] at h ⊢
        have hp := Option.some.inj h
        have h1 : s = s' := congrArg Prod.fst hp
        have h2 : getI s.dp0 v = r := congrArg Prod.snd hp
        refine ⟨t, getI t.dp0 v, rfl, ?_, ?_⟩
        · rw [← h1]; exact hst
        · rw [← h2]; exact hst.2.2.2.1 v
    · have hv' : getB t.visited v = false := by
        rw [← hvis]; simpa using hv
      have hs0 : StRel ⟨s.dp0.set v 0, s.dp1.set v (getI w v), s.visited.set v true⟩
          ⟨t.dp0.set v 0, t.dp1.set v (getI w' v), t.visited.set v true⟩ := by
        obtain ⟨hveq, h0, h1, hle0, hle1⟩ := hst
        exact ⟨by rw [hveq], by simpa using h0, by simpa using h1,
          getI_set_mono v 0 0 h0 (le_refl 0) hle0,
          getI_set_mono v _ _ h1 (hw v) hle1⟩
      have hdpn := dpNeighbors_mono (dp_solve fuel adj w chA) (dp_solve fuel adj w' chB)
        (fun u s1 t1 h1 => ih adj w w' chA chB u s1 t1 hw h1) v (getL adj v) _ _ hs0
      constructor
      · intro h
        simp only [dp_solve, hv, hv', Bool.false_eq_true, if_false] at h ⊢
        cases hA : dpNeighbors (dp_solve fuel adj w chA) v (getL adj v)
            ⟨s.dp0.set v 0, s.dp1.set v (getI w v), s.visited.set v true⟩ with
        | none => rw [hdpn.1 hA]
        | some s1 => rw [hA] at h; exact absurd h (by simp)
      · intro s' r h
        simp only [dp_solve, hv, hv', Bool.false_eq_true, if_false] at h ⊢
        cases hA : dpNeighbors (dp_solve fuel adj w chA) v (getL adj v)
            ⟨s.dp0.set v 0, s.dp1.set v (getI w v), s.visited.set v true⟩ with
        | none => rw [hA] at h; exact absurd h (by simp)
        | some s1 =>
          obtain ⟨t1, hB, hst1⟩ := hdpn.2 s1 hA
          rw [hA] at h
          rw [hB]
          simp only [Option.some.injEq, Prod.mk.injEq] at h
          obtain ⟨h1, h2⟩ := h
          refine ⟨t1, max (getI t1.dp0 v) (getI t1.dp1 v), rfl, ?_, ?_⟩
          · rw [← h1]; exact hst1
          · rw [← h2]
            exact max_le_max (hst1.2.2.2.1 v) (hst1.2.2.2.2 v)

theorem weights_le_bump (w : List Int) (v : Nat) (d : Int) (hd : 0 ≤ d) :
    ∀ i, getI w i ≤ getI (w.set v (getI w v + d)) i := by
  intro i
  simp only [getI]
  by_cases hiv : i = v
  · subst hiv
    by_cases hr : i < w.length
    · rw [getD_set_self _ _ _ _ hr]
      omega
    · rw [List.set_eq_of_length_le (Nat.le_of_not_lt hr)]
  · rw [getD_set_ne _ _ _ _ _ (fun hvi => hiv hvi.symm)]

/-- When `dp_solve` succeeds, `solve_mwis` is the backtrack phase. -/
theorem solve_mwis_eq (fuel : Nat) (adj : List (List Nat)) (weights : List Int)
    (s : DPState) (rr : Int)
    (hA : dp_solve fuel adj weights (List.replicate adj.length (false, false)) 0
      (initState adj.length) = some (s, rr)) :
    solve_mwis fuel adj weights =
      match backtrack fuel 0 adj (List.replicate adj.length (false, false)) s.visited with
      | none => none
      | some verts => some (getI s.dp0 0, verts) := by
  simp only [solve_mwis]
  rw [hA]

/-- C7: increasing any single vertex's weight by `Δ > 0` never decreases
the optimum weight reported by `solve_mwis` (when both runs terminate
within the given fuel). -/
theorem c7_monotonicity (fuel : Nat) (adj : List (List Nat)) (w : List Int)
    (v : Nat) (d : Int) (hd : 0 < d) (r r' : Int) (vs vs' : List Nat)
    (h : solve_mwis fuel adj w = some (r, vs))
    (h' : solve_mwis fuel adj (w.set v (getI w v + d)) = some (r', vs')) :
    r ≤ r' := by
  cases hA : dp_solve fuel adj w (List.replicate adj.length (false, false)) 0
      (initState adj.length) with
  | none =>
    rw [solve_mwis] at h
    rw [hA] at h
    have hcontra : (none : Option (Int × List Nat)) = some (r, vs) := h
    exact absurd hcontra (by simp)
  | some p =>
    obtain ⟨s, rr⟩ := p
    cases hB : dp_solve fuel adj (w.set v (getI w v + d))
        (List.replicate adj.length (false, false)) 0 (initState adj.length) with
    | none =>
      rw [solve_mwis] at h'
      rw [hB] at h'
      have hcontra : (none : Option (Int × List Nat)) = some (r', vs') := h'
      exact absurd hcontra (by simp)
    | some p' =>
      obtain ⟨s', rr'⟩ := p'
      obtain ⟨t', rt', hB', hst, _⟩ :=
        (dp_solve_mono fuel adj w (w.set v (getI w v + d))
          (List.replicate adj.length (false, false))
          (List.replicate adj.length (false, false)) 0
          (initState adj.length) (initState adj.length)
          (weights_le_bump w v d (le_of_lt hd))
          (strel_refl (initState adj.length))).2 s rr hA
      have hts : t' = s' := by
        rw [hB] at hB'
        exact (congrArg Prod.fst (Option.some.inj hB')).symm
      rw [solve_mwis_eq fuel adj w s rr hA] at h
      rw [solve_mwis_eq fuel adj (w.set v (getI w v + d)) s' rr' hB] at h'
      cases hC : backtrack fuel 0 adj (List.replicate adj.length (false, false))
          s.visited with
      | none =>
        rw [hC] at h
        have hcontra : (none : Option (Int × List Nat)) = some (r, vs) := h
        exact absurd hcontra (by simp)
      | some verts =>
        rw [hC] at h
        have hh : some (getI s.dp0 0, verts) = some (r, vs) := h
        cases hC' : backtrack fuel 0 adj (List.replicate adj.length (false, false))
            s'.visited with
        | none =>
          rw [hC'] at h'
          have hcontra : (none : Option (Int × List Nat)) = some (r', vs') := h'
          exact absurd hcontra (by simp)
        | some verts' =>
          rw [hC'] at h'
          have hh' : some (getI s'.dp0 0, verts') = some (r', vs') := h'
          have hr : getI s.dp0 0 = r := congrArg Prod.fst (Option.some.inj hh)
          have hr' : getI s'.dp0 0 = r' := congrArg Prod.fst (Option.some.inj hh')
          rw [← hr, ← hr', ← hts]
          exact hst.2.2.2.1 0

/-- Witness for C7: bumping the weight of vertex `0` from `5` to `6` on
the single-edge graph leaves the reported optimum at `3 ≤ 3`. -/
theorem c7_witness :
    (0 : Int) < 1 ∧
    solve_mwis 3 [[1], [0]] [5, 3] = some (3, []) ∧
    (3 : Int) ≤ 3 :=
  ⟨by decide, rfl,
   c7_monotonicity 3 [[1], [0]] [5, 3] 0 1 (by decide) 3 3 [] [] rfl rfl⟩

/-! ### The DP recurrences (C3)

To state which neighbors contributed to a vertex's DP row we instrument
the solver state with a ghost field `kids` that records, for each vertex
`v`, the adjacency entries of `v` that were found unvisited during `v`'s
neighbor scan (exactly the neighbors whose recursive solve feeds the two
`+=` updates).  The field is write-only: no computation reads it, and
`dp_solveK_erase` proves that forgetting it recovers `dp_solve`
exactly. -/

structure DPStateK : Type where
  dp0 : List Int
  dp1 : List Int
  visited : List Bool
  kids : List (List Nat)
deriving DecidableEq

/-- Forget the ghost `kids` field. -/
def eraseK (s : DPStateK) : DPState := ⟨s.dp0, s.dp1, s.visited⟩

/-- `updChild`, also recording `u` as a DFS child of `v`. -/
def updChildK (v u : Nat) (s : DPStateK) : DPStateK :=
  ⟨s.dp0.set v (getI s.dp0 v + max (getI s.dp0 u) (getI s.dp1 u)),
   s.dp1.set v (getI s.dp1 v + getI s.dp0 u),
   s.visited,
   s.kids.set v (getL s.kids v ++ [u])⟩

/-- The neighbor loop of `dp_solve`, on instrumented states. -/
def dpNeighborsK (rec : Nat → DPStateK → Option (DPStateK × Int)) (v : Nat) :
    List Nat → DPStateK → Option DPStateK
  | [], s => some s
  | u :: us, s =>
    if getB s.visited u then dpNeighborsK rec v us s
    else
      match rec u s with
      | none => none
      | some (s1, _) => dpNeighborsK rec v us (updChildK v u s1)

/-- `dp_solve` on instrumented states; `v`'s child list is reset to `[]`
when `v`'s row is initialized. -/
def dp_solveK : Nat → List (List Nat) → List Int → List (Bool × Bool) → Nat → DPStateK →
    Option (DPStateK × Int)
  | 0, _, _, _, _, _ => none
  | fuel+1, adj, weights, dp_choice, v, s =>
    if getB s.visited v then some (s, getI s.dp0 v)
    else
      let s0 : DPStateK :=
        ⟨s.dp0.set v 0, s.dp1.set v (getI weights v), s.visited.set v true,
         s.kids.set v []⟩
      match dpNeighborsK (dp_solveK fuel adj weights dp_choice) v (getL adj v) s0 with
      | none => none
      | some s1 => some (s1, max (getI s1.dp0 v) (getI s1.dp1 v))

/-- Instrumented initial state. -/
def initStateK (n : Nat) : DPStateK :=
  ⟨List.replicate n 0, List.replicate n 0, List.replicate n false, List.replicate n []⟩

theorem eraseK_updChildK (v u : Nat) (s : DPStateK) :
    eraseK (updChildK v u s) = updChild v u (eraseK s) := rfl

theorem dpNeighborsK_erase
    (recK : Nat → DPStateK → Option (DPStateK × Int))
    (rec : Nat → DPState → Option (DPState × Int))
    (hrec : ∀ u s, rec u (eraseK s) =
      (recK u s).map (fun p => (eraseK p.1, p.2)))
    (v : Nat) :
    ∀ us (s : DPStateK),
      dpNeighbors rec v us (eraseK s) = (dpNeighborsK recK v us s).map eraseK := by
  intro us
  induction us with
  | nil => intro s; rfl
  | cons u us ih =>
    intro s
    have hvis : getB (eraseK s).visited u = getB s.visited u := rfl
    by_cases hu : getB s.visited u
    · simp only [dpNeighbors, dpNeighborsK, hvis, hu, if_true]
      exact ih s
    · simp only [dpNeighbors, dpNeighborsK, hvis, hu, Bool.false_eq_true, if_false]
      rw [hrec u s]
      cases hK : recK u s with
      | none => rfl
      | some p =>
        obtain ⟨s1, r1⟩ := p
        exact ih (updChildK v u s1)

theorem dp_solveK_erase :
    ∀ (fuel : Nat) (adj : List (List Nat)) (w : List Int) (ch : List (Bool × Bool))
      (v : Nat) (s : DPStateK),
      dp_solve fuel adj w ch v (eraseK s) =
        (dp_solveK fuel adj w ch v s).map (fun p => (eraseK p.1, p.2)) := by
  intro fuel
  induction fuel with
  | zero => intro adj w ch v s; rfl
  | succ fuel ih =>
    intro adj w ch v s
    have hvis : getB (eraseK s).visited v = getB s.visited v := rfl
    by_cases hv : getB s.visited v
    · simp only [dp_solve, dp_solveK, hvis, hv, if_true]
      rfl
    · simp only [dp_solve, dp_solveK, hvis, hv, Bool.false_eq_true, if_false]
      have hstep := dpNeighborsK_erase (dp_solveK fuel adj w ch) (dp_solve fuel adj w ch)
        (fun u s1 => ih adj w ch u s1) v (getL adj v)
        ⟨s.dp0.set v 0, s.dp1.set v (getI w v), s.visited.set v true, s.kids.set v []⟩
      have herase : eraseK ⟨s.dp0.set v 0, s.dp1.set v (getI w v), s.visited.set v true,
          s.kids.set v []⟩ =
          ⟨(eraseK s).dp0.set v 0, (eraseK s).dp1.set v (getI w v),
           (eraseK s).visited.set v true⟩ := rfl
      rw [herase] at hstep
      rw [hstep]
      cases hK : dpNeighborsK (dp_solveK fuel adj w ch) v (getL adj v)
          ⟨s.dp0.set v 0, s.dp1.set v (getI w v), s.visited.set v true,
           s.kids.set v []⟩ with
      | none => rfl
      | some s1 => rfl

/-- Well-formed (materialized) adjacency list: every entry is a vertex
index below the vertex count. -/
def wfAdj (adj : List (List Nat)) : Prop :=
  ∀ l ∈ adj, ∀ u ∈ l, u < adj.length

theorem getL_adj_lt (adj : List (List Nat)) (hwf : wfAdj adj) (v u : Nat)
    (hu : u ∈ getL adj v) : u < adj.length := by
  by_cases hv : v < adj.length
  · have : getL adj v = adj[v] := by
      simp [getL, List.getD_eq_getElem?_getD, List.getElem?_eq_getElem hv]
    rw [this] at hu
    exact hwf adj[v] (List.getElem_mem hv) u hu
  · have : getL adj v = [] := by
      simp [getL, List.getD_eq_getElem?_getD,
        List.getElem?_eq_none (Nat.le_of_not_lt hv)]
    rw [this] at hu
    exact absurd hu (List.not_mem_nil u)

/-- `excluded`-side sum over the recorded DFS children of `x`:
`Σ max(dp[u][0], dp[u][1])`. -/
def kidsSum0 (s : DPStateK) (x : Nat) : Int :=
  ((getL s.kids x).map (fun u => max (getI s.dp0 u) (getI s.dp1 u))).sum

/-- `included`-side sum over the recorded DFS children of `x`:
`Σ dp[u][0]`. -/
def kidsSum1 (s : DPStateK) (x : Nat) : Int :=
  ((getL s.kids x).map (fun u => getI s.dp0 u)).sum

/-- The state invariant of the instrumented DP: tables have the vertex
count as length; every visited vertex's row satisfies the two
recurrences over its recorded children, all of which are visited; and
unvisited vertices have no recorded children. -/
def GoodK (adj : List (List Nat)) (w : List Int) (s : DPStateK) : Prop :=
  s.dp0.length = adj.length ∧ s.dp1.length = adj.length ∧
  s.visited.length = adj.length ∧ s.kids.length = adj.length ∧
  (∀ x, getB s.visited x = true →
    (∀ u ∈ getL s.kids x, getB s.visited u = true) ∧
    getI s.dp0 x = kidsSum0 s x ∧
    getI s.dp1 x = getI w x + kidsSum1 s x) ∧
  (∀ x, getB s.visited x = false → getL s.kids x = [])

/-- Frame property of a completed `dp_solveK` call: visitedness only
grows, the rows of already-visited vertices are untouched, and any new
child record concerns a vertex that was unvisited at entry. -/
def FrameK (s t : DPStateK) : Prop :=
  (∀ x, getB s.visited x = true → getB t.visited x = true) ∧
  (∀ x, getB s.visited x = true →
    getI t.dp0 x = getI s.dp0 x ∧ getI t.dp1 x = getI s.dp1 x ∧
    getL t.kids x = getL s.kids x) ∧
  (∀ x u, u ∈ getL t.kids x → u ∈ getL s.kids x ∨ getB s.visited u = false)

/-- Frame property of the neighbor loop of `v`: as `FrameK`, except that
`v`'s own row (being accumulated) is exempt. -/
def FrameExceptK (v : Nat) (s t : DPStateK) : Prop :=
  (∀ x, getB s.visited x = true → getB t.visited x = true) ∧
  (∀ x, x ≠ v → getB s.visited x = true →
    getI t.dp0 x = getI s.dp0 x ∧ getI t.dp1 x = getI s.dp1 x ∧
    getL t.kids x = getL s.kids x) ∧
  (∀ x u, u ∈ getL t.kids x → u ∈ getL s.kids x ∨ getB s.visited u = false)

theorem frameK_refl (s : DPStateK) : FrameK s s :=
  ⟨fun _ h => h, fun _ _ => ⟨rfl, rfl, rfl⟩, fun _ _ h => Or.inl h⟩

theorem frameExceptK_refl (v : Nat) (s : DPStateK) : FrameExceptK v s s :=
  ⟨fun _ h => h, fun _ _ _ => ⟨rfl, rfl, rfl⟩, fun _ _ h => Or.inl h⟩

theorem frameExceptK_trans (v : Nat) {s t u : DPStateK}
    (h1 : FrameExceptK v s t) (h2 : FrameExceptK v t u) : FrameExceptK v s u := by
  obtain ⟨m1, f1, k1⟩ := h1
  obtain ⟨m2, f2, k2⟩ := h2
  refine ⟨fun x hx => m2 x (m1 x hx), ?_, ?_⟩
  · intro x hxv hx
    obtain ⟨a1, b1, c1⟩ := f1 x hxv hx
    obtain ⟨a2, b2, c2⟩ := f2 x hxv (m1 x hx)
    exact ⟨a2.trans a1, b2.trans b1, c2.trans c1⟩
  · intro x m hm
    rcases k2 x m hm with hin | hunv
    · exact k1 x m hin
    · right
      by_cases hms : getB s.visited m = true
      · exact absurd (m1 m hms) (by rw [hunv]; exact Bool.false_ne_true)
      · exact Bool.not_eq_true _ ▸ (by simpa using hms)

theorem getI_set_self (l : List Int) (v : Nat) (x : Int) (h : v < l.length) :
    getI (l.set v x) v = x := getD_set_self l v x 0 h

theorem getI_set_ne (l : List Int) (v i : Nat) (x : Int) (h : v ≠ i) :
    getI (l.set v x) i = getI l i := getD_set_ne l v i x 0 h

theorem getB_set_self (l : List Bool) (v : Nat) (b : Bool) (h : v < l.length) :
    getB (l.set v b) v = b := getD_set_self l v b false h

theorem getB_set_ne (l : List Bool) (v i : Nat) (b : Bool) (h : v ≠ i) :
    getB (l.set v b) i = getB l i := getD_set_ne l v i b false h

theorem getL_set_self (l : List (List Nat)) (v : Nat) (x : List Nat)
    (h : v < l.length) : getL (l.set v x) v = x := getD_set_self l v x [] h

theorem getL_set_ne (l : List (List Nat)) (v i : Nat) (x : List Nat) (h : v ≠ i) :
    getL (l.set v x) i = getL l i := getD_set_ne l v i x [] h

theorem updChildK_good (adj : List (List Nat)) (w : List Int) (v u : Nat)
    (hv : v < adj.length) (hvu : u ≠ v) (s : DPStateK) (hg : GoodK adj w s)
    (hvvis : getB s.visited v = true) (huvis : getB s.visited u = true)
    (hnok : ∀ x, v ∉ getL s.kids x) :
    GoodK adj w (updChildK v u s) := by
  obtain ⟨hl0, hl1, hlv, hlk, hmain, hempty⟩ := hg
  have e0s : ∀ i, i ≠ v → getI (updChildK v u s).dp0 i = getI s.dp0 i :=
    fun i hi => getI_set_ne s.dp0 v i _ (fun he => hi he.symm)
  have e1s : ∀ i, i ≠ v → getI (updChildK v u s).dp1 i = getI s.dp1 i :=
    fun i hi => getI_set_ne s.dp1 v i _ (fun he => hi he.symm)
  have e0v : getI (updChildK v u s).dp0 v =
      getI s.dp0 v + max (getI s.dp0 u) (getI s.dp1 u) :=
    getI_set_self s.dp0 v _ (by rw [hl0]; exact hv)
  have e1v : getI (updChildK v u s).dp1 v = getI s.dp1 v + getI s.dp0 u :=
    getI_set_self s.dp1 v _ (by rw [hl1]; exact hv)
  have ekv : getL (updChildK v u s).kids v = getL s.kids v ++ [u] :=
    getL_set_self s.kids v _ (by rw [hlk]; exact hv)
  have eks : ∀ i, i ≠ v → getL (updChildK v u s).kids i = getL s.kids i :=
    fun i hi => getL_set_ne s.kids v i _ (fun he => hi he.symm)
  refine ⟨by simpa [updChildK] using hl0, by simpa [updChildK] using hl1,
    hlv, by simpa [updChildK] using hlk, ?_, ?_⟩
  · intro x hx
    have hx' : getB s.visited x = true := hx
    by_cases hxv : x = v
    · subst hxv
      refine ⟨?_, ?_, ?_⟩
      · intro m hm
        have hm2 : m ∈ getL s.kids x ++ [u] := by rw [← ekv]; exact hm
        rcases List.mem_append.mp hm2 with hm' | hm''
        · exact (hmain x hx').1 m hm'
        · rw [List.mem_singleton.mp hm'']
          exact huvis
      · have hsum0 : kidsSum0 (updChildK x u s) x =
            kidsSum0 s x + max (getI s.dp0 u) (getI s.dp1 u) := by
          unfold kidsSum0
          rw [ekv, List.map_append, List.sum_append]
          congr 1
          · exact congrArg List.sum (List.map_congr_left (fun m hm => by
              have hmv : m ≠ x := fun he => hnok x (he ▸ hm)
              rw [e0s m hmv, e1s m hmv]))
          · simp [e0s u hvu, e1s u hvu]
        rw [e0v, hsum0, (hmain x hx').2.1]
      · have hsum1 : kidsSum1 (updChildK x u s) x = kidsSum1 s x + getI s.dp0 u := by
          unfold kidsSum1
          rw [ekv, List.map_append, List.sum_append]
          congr 1
          · exact congrArg List.sum (List.map_congr_left (fun m hm => by
              have hmv : m ≠ x := fun he => hnok x (he ▸ hm)
              rw [e0s m hmv]))
          · simp [e0s u hvu]
        rw [e1v, hsum1, (hmain x hx').2.2]
        ring
    · have ekx : getL (updChildK v u s).kids x = getL s.kids x := eks x hxv
      refine ⟨?_, ?_, ?_⟩
      · intro m hm
        rw [ekx] at hm
        exact (hmain x hx').1 m hm
      · have hsx : kidsSum0 (updChildK v u s) x = kidsSum0 s x := by
          unfold kidsSum0
          rw [ekx]
          exact congrArg List.sum (List.map_congr_left (fun m hm => by
            have hmv : m ≠ v := fun he => hnok x (he ▸ hm)
            rw [e0s m hmv, e1s m hmv]))
        rw [e0s x hxv, hsx, (hmain x hx').2.1]
      · have hsx : kidsSum1 (updChildK v u s) x = kidsSum1 s x := by
          unfold kidsSum1
          rw [ekx]
          exact congrArg List.sum (List.map_congr_left (fun m hm => by
            have hmv : m ≠ v := fun he => hnok x (he ▸ hm)
            rw [e0s m hmv]))
        rw [e1s x hxv, hsx, (hmain x hx').2.2]
  · intro x hx
    have hx' : getB s.visited x = false := hx
    have hxv : x ≠ v := fun he => by rw [he, hvvis] at hx'; exact absurd hx' (by simp)
    rw [eks x hxv]
    exact hempty x hx'

theorem dpNeighborsK_invariant
    (adj : List (List Nat)) (w : List Int)
    (rec : Nat → DPStateK → Option (DPStateK × Int))
    (hrec : ∀ u s s' r, u < adj.length → GoodK adj w s → rec u s = some (s', r) →
      GoodK adj w s' ∧ FrameK s s' ∧ getB s'.visited u = true)
    (v : Nat) (hv : v < adj.length) :
    ∀ us (s s' : DPStateK), (∀ u ∈ us, u < adj.length) → GoodK adj w s →
      getB s.visited v = true → (∀ x, v ∉ getL s.kids x) →
      dpNeighborsK rec v us s = some s' →
      GoodK adj w s' ∧ FrameExceptK v s s' ∧ (∀ x, v ∉ getL s'.kids x) ∧
      getB s'.visited v = true := by
  intro us
  induction us with
  | nil =>
    intro s s' hus hg hvv hnok h
    have hss : s = s' := Option.some.inj h
    exact hss ▸ ⟨hg, frameExceptK_refl v s, hnok, hvv⟩
  | cons u us ih =>
    intro s s' hus hg hvv hnok h
    by_cases hu : getB s.visited u
    · have h2 : dpNeighborsK rec v us s = some s' := by
        simp only [dpNeighborsK, hu, if_true] at h
        exact h
      exact ih s s' (fun m hm => hus m (List.mem_cons_of_mem u hm)) hg hvv hnok h2
    · have hufalse : getB s.visited u = false := by simpa using hu
      cases hA : rec u s with
      | none =>
        have hcontra : (none : Option DPStateK) = some s' := by
          simp only [dpNeighborsK, hufalse, Bool.false_eq_true, if_false] at h
          rw [hA] at h
          exact h
        exact absurd hcontra (by simp)
      | some p =>
        obtain ⟨s1, r1⟩ := p
        have h2 : dpNeighborsK rec v us (updChildK v u s1) = some s' := by
          simp only [dpNeighborsK, hufalse, Bool.false_eq_true, if_false] at h
          rw [hA] at h
          exact h
        have hu_lt : u < adj.length := hus u (List.mem_cons_self u us)
        obtain ⟨hg1, hfr1, huv1⟩ := hrec u s s1 r1 hu_lt hg hA
        have hvu : u ≠ v := fun he => by
          rw [he, hvv] at hufalse
          exact absurd hufalse (by simp)
        have hvv1 : getB s1.visited v = true := hfr1.1 v hvv
        have hnok1 : ∀ x, v ∉ getL s1.kids x := by
          intro x hx
          rcases hfr1.2.2 x v hx with hin | hunv
          · exact hnok x hin
          · rw [hvv] at hunv
            exact absurd hunv (by simp)
        have hg2 : GoodK adj w (updChildK v u s1) :=
          updChildK_good adj w v u hv hvu s1 hg1 hvv1 huv1 hnok1
        have hvv2 : getB (updChildK v u s1).visited v = true := hvv1
        have hkv1 : getL s1.kids v = getL s.kids v := (hfr1.2.1 v hvv).2.2
        have ekv2 : getL (updChildK v u s1).kids v = getL s1.kids v ++ [u] :=
          getL_set_self s1.kids v _ (by rw [hg1.2.2.2.1]; exact hv)
        have eks2 : ∀ i, i ≠ v → getL (updChildK v u s1).kids i = getL s1.kids i :=
          fun i hi => getL_set_ne s1.kids v i _ (fun he => hi he.symm)
        have hnok2 : ∀ x, v ∉ getL (updChildK v u s1).kids x := by
          intro x hx
          by_cases hxv : x = v
          · rw [hxv, ekv2] at hx
            rcases List.mem_append.mp hx with hm' | hm''
            · exact hnok1 v hm'
            · exact hvu (List.mem_singleton.mp hm'').symm
          · rw [eks2 x hxv] at hx
            exact hnok1 x hx
        obtain ⟨hgE, hfrE, hnokE, hvvE⟩ :=
          ih (updChildK v u s1) s' (fun m hm => hus m (List.mem_cons_of_mem u hm))
            hg2 hvv2 hnok2 h2
        refine ⟨hgE, frameExceptK_trans v ?_ hfrE, hnokE, hvvE⟩
        refine ⟨fun x hx => hfr1.1 x hx, ?_, ?_⟩
        · intro x hxv hx
          obtain ⟨a1, b1, c1⟩ := hfr1.2.1 x hx
          exact ⟨(getI_set_ne s1.dp0 v x _ (fun he => hxv he.symm)).trans a1,
                 (getI_set_ne s1.dp1 v x _ (fun he => hxv he.symm)).trans b1,
                 (eks2 x hxv).trans c1⟩
        · intro x m hm
          by_cases hxv : x = v
          · rw [hxv, ekv2] at hm
            rcases List.mem_append.mp hm with hm' | hm''
            · rw [hkv1] at hm'
              rw [hxv]
              exact Or.inl hm'
            · right
              rw [List.mem_singleton.mp hm'']
              exact hufalse
          · rw [eks2 x hxv] at hm
            exact hfr1.2.2 x m hm

theorem dp_solveK_invariant (adj : List (List Nat)) (w : List Int)
    (ch : List (Bool × Bool)) (hwf : wfAdj adj) :
    ∀ (fuel v : Nat) (s s' : DPStateK) (r : Int), GoodK adj w s →
      dp_solveK fuel adj w ch v s = some (s', r) →
      GoodK adj w s' ∧ FrameK s s' ∧ (v < adj.length → getB s'.visited v = true) := by
  intro fuel
  induction fuel with
  | zero =>
    intro v s s' r hg h
    exact absurd h (by simp [dp_solveK])
  | succ fuel ih =>
    intro v s s' r hg h
    by_cases hvis : getB s.visited v
    · have hp : some (s, getI s.dp0 v) = some (s', r) := by
        simp only [dp_solveK, hvis, if_true] at h
        exact h
      have h1 : s = s' := congrArg Prod.fst (Option.some.inj hp)
      exact h1 ▸ ⟨hg, frameK_refl s, fun _ => hvis⟩
    · have hvfalse : getB s.visited v = false := by simpa using hvis
      obtain ⟨hl0, hl1, hlv, hlk, hmain, hempty⟩ := hg
      by_cases hvn : v < adj.length
      · simp only [dp_solveK, hvfalse, Bool.false_eq_true, if_false] at h
        have evv : getB (s.visited.set v true) v = true :=
          getB_set_self s.visited v true (by rw [hlv]; exact hvn)
        have evis_ne : ∀ x, x ≠ v → getB (s.visited.set v true) x = getB s.visited x :=
          fun x hx => getB_set_ne s.visited v x true (fun he => hx he.symm)
        have ek0v : getL (s.kids.set v []) v = [] :=
          getL_set_self s.kids v [] (by rw [hlk]; exact hvn)
        have ek0s : ∀ x, x ≠ v → getL (s.kids.set v []) x = getL s.kids x :=
          fun x hx => getL_set_ne s.kids v x [] (fun he => hx he.symm)
        have e00v : getI (s.dp0.set v 0) v = 0 :=
          getI_set_self s.dp0 v 0 (by rw [hl0]; exact hvn)
        have e00s : ∀ x, x ≠ v → getI (s.dp0.set v 0) x = getI s.dp0 x :=
          fun x hx => getI_set_ne s.dp0 v x 0 (fun he => hx he.symm)
        have e01v : getI (s.dp1.set v (getI w v)) v = getI w v :=
          getI_set_self s.dp1 v _ (by rw [hl1]; exact hvn)
        have e01s : ∀ x, x ≠ v → getI (s.dp1.set v (getI w v)) x = getI s.dp1 x :=
          fun x hx => getI_set_ne s.dp1 v x _ (fun he => hx he.symm)
        have hxnev : ∀ x, getB s.visited x = true → x ≠ v :=
          fun x hx he => by rw [he, hvfalse] at hx; exact absurd hx (by simp)
        have hgood0 : GoodK adj w
            ⟨s.dp0.set v 0, s.dp1.set v (getI w v), s.visited.set v true,
             s.kids.set v []⟩ := by
          refine ⟨by simpa using hl0, by simpa using hl1, by simpa using hlv,
            by simpa using hlk, ?_, ?_⟩
          · intro x hx
            by_cases hxv : x = v
            · subst hxv
              refine ⟨?_, ?_, ?_⟩
              · intro m hm
                rw [show getL (⟨s.dp0.set x 0, s.dp1.set x (getI w x),
                    s.visited.set x true, s.kids.set x []⟩ : DPStateK).kids x = []
                    from ek0v] at hm
                exact absurd hm (List.not_mem_nil m)
              · rw [show getI (s.dp0.set x 0) x = 0 from e00v]
                unfold kidsSum0
                rw [show getL (⟨s.dp0.set x 0, s.dp1.set x (getI w x),
                    s.visited.set x true, s.kids.set x []⟩ : DPStateK).kids x = []
                    from ek0v]
                rfl
              · rw [show getI (s.dp1.set x (getI w x)) x = getI w x from e01v]
                unfold kidsSum1
                rw [show getL (⟨s.dp0.set x 0, s.dp1.set x (getI w x),
                    s.visited.set x true, s.kids.set x []⟩ : DPStateK).kids x = []
                    from ek0v]
                simp
            · have hx' : getB s.visited x = true := by
                rw [evis_ne x hxv] at hx
                exact hx
              have hker : getL (s.kids.set v []) x = getL s.kids x := ek0s x hxv
              have hmem_ne : ∀ m ∈ getL s.kids x, m ≠ v :=
                fun m hm => hxnev m ((hmain x hx').1 m hm)
              refine ⟨?_, ?_, ?_⟩
              · intro m hm
                rw [hker] at hm
                rw [evis_ne m (hmem_ne m hm)]
                exact (hmain x hx').1 m hm
              · rw [e00s x hxv]
                have hsx : kidsSum0
                    ⟨s.dp0.set v 0, s.dp1.set v (getI w v), s.visited.set v true,
                     s.kids.set v []⟩ x = kidsSum0 s x := by
                  unfold kidsSum0
                  rw [hker]
                  exact congrArg List.sum (List.map_congr_left (fun m hm => by
                    rw [e00s m (hmem_ne m hm), e01s m (hmem_ne m hm)]))
                rw [hsx]
                exact (hmain x hx').2.1
              · rw [e01s x hxv]
                have hsx : kidsSum1
                    ⟨s.dp0.set v 0, s.dp1.set v (getI w v), s.visited.set v true,
                     s.kids.set v []⟩ x = kidsSum1 s x := by
                  unfold kidsSum1
                  rw [hker]
                  exact congrArg List.sum (List.map_congr_left (fun m hm => by
                    rw [e00s m (hmem_ne m hm)]))
                rw [hsx]
                exact (hmain x hx').2.2
          · intro x hx
            have hxv : x ≠ v := fun he => by
              rw [he, evv] at hx
              exact absurd hx (by simp)
            have hx' : getB s.visited x = false := by
              rw [evis_ne x hxv] at hx
              exact hx
            rw [ek0s x hxv]
            exact hempty x hx'
        have hnok0 : ∀ x, v ∉ getL
            (⟨s.dp0.set v 0, s.dp1.set v (getI w v), s.visited.set v true,
              s.kids.set v []⟩ : DPStateK).kids x := by
          intro x hx
          by_cases hxv : x = v
          · rw [hxv, ek0v] at hx
            exact absurd hx (List.not_mem_nil v)
          · rw [ek0s x hxv] at hx
            cases hxvis : getB s.visited x with
            | true => exact hxnev v ((hmain x hxvis).1 v hx) rfl
            | false => rw [hempty x hxvis] at hx; exact absurd hx (List.not_mem_nil v)
        cases hA : dpNeighborsK (dp_solveK fuel adj w ch) v (getL adj v)
            ⟨s.dp0.set v 0, s.dp1.set v (getI w v), s.visited.set v true,
             s.kids.set v []⟩ with
        | none =>
          rw [hA] at h
          exact absurd (show (none : Option (DPStateK × Int)) = some (s', r) from h)
            (by simp)
        | some s1 =>
          rw [hA] at h
          have hp : some (s1, max (getI s1.dp0 v) (getI s1.dp1 v)) = some (s', r) := h
          have h1 : s1 = s' := congrArg Prod.fst (Option.some.inj hp)
          obtain ⟨hgE, hfrE, hnokE, hvvE⟩ :=
            dpNeighborsK_invariant adj w (dp_solveK fuel adj w ch)
              (fun u su s'' r'' hu hgg hh =>
                ⟨(ih u su s'' r'' hgg hh).1, (ih u su s'' r'' hgg hh).2.1,
                 (ih u su s'' r'' hgg hh).2.2 hu⟩)
              v hvn (getL adj v) _ s1
              (fun u hu => getL_adj_lt adj hwf v u hu) hgood0 evv hnok0 hA
          refine ⟨h1 ▸ hgE, ?_, fun _ => h1 ▸ hvvE⟩
          have hfr : FrameK s s1 := by
            refine ⟨?_, ?_, ?_⟩
            · intro x hx
              have hxv := hxnev x hx
              exact hfrE.1 x (by rw [evis_ne x hxv]; exact hx)
            · intro x hx
              have hxv := hxnev x hx
              obtain ⟨a1, b1, c1⟩ := hfrE.2.1 x hxv (by rw [evis_ne x hxv]; exact hx)
              exact ⟨a1.trans (e00s x hxv), b1.trans (e01s x hxv),
                c1.trans (ek0s x hxv)⟩
            · intro x m hm
              rcases hfrE.2.2 x m hm with hin | hunv
              · by_cases hxv : x = v
                · rw [hxv, ek0v] at hin
                  exact absurd hin (List.not_mem_nil m)
                · rw [ek0s x hxv] at hin
                  exact Or.inl hin
              · right
                have hmv : m ≠ v := fun he => by
                  rw [he, evv] at hunv
                  exact absurd hunv (by simp)
                rw [evis_ne m hmv] at hunv
                exact hunv
          exact h1 ▸ hfr
      · have hnil : getL adj v = [] := by
          simp [getL, List.getD_eq_getElem?_getD,
            List.getElem?_eq_none (Nat.le_of_not_lt hvn)]
        have e0 : s.dp0.set v 0 = s.dp0 :=
          List.set_eq_of_length_le (by rw [hl0]; exact Nat.le_of_not_lt hvn)
        have e1 : s.dp1.set v (getI w v) = s.dp1 :=
          List.set_eq_of_length_le (by rw [hl1]; exact Nat.le_of_not_lt hvn)
        have e2 : s.visited.set v true = s.visited :=
          List.set_eq_of_length_le (by rw [hlv]; exact Nat.le_of_not_lt hvn)
        have e3 : s.kids.set v [] = s.kids :=
          List.set_eq_of_length_le (by rw [hlk]; exact Nat.le_of_not_lt hvn)
        simp only [dp_solveK, hvfalse, Bool.false_eq_true, if_false] at h
        rw [hnil, e0, e1, e2, e3] at h
        have hp : some (s, max (getI s.dp0 v) (getI s.dp1 v)) = some (s', r) := h
        have h1 : s = s' := congrArg Prod.fst (Option.some.inj hp)
        exact h1 ▸ ⟨⟨hl0, hl1, hlv, hlk, hmain, hempty⟩, frameK_refl s,
          fun hlt => absurd hlt hvn⟩

theorem goodK_init (adj : List (List Nat)) (w : List Int) :
    GoodK adj w (initStateK adj.length) := by
  refine ⟨by simp [initStateK], by simp [initStateK], by simp [initStateK],
    by simp [initStateK], ?_, ?_⟩
  · intro x hx
    have hx' : getB (List.replicate adj.length false) x = true := hx
    rw [show getB (List.replicate adj.length false) x = false from
      getD_replicate adj.length x false] at hx'
    exact absurd hx' (by simp)
  · intro x _
    exact getD_replicate adj.length x []

/-- C3: after a terminating run of `dp_solve` from root `0` on a
well-formed adjacency list, every visited vertex `v` satisfies
`excluded(v) = dp[v][0] = Σ max(dp[u][0], dp[u][1])` and
`included(v) = dp[v][1] = weights[v] + Σ dp[u][0]`, both sums ranging
over the adjacency entries of `v` that were unvisited when `v`'s
neighbor scan reached them (the recorded DFS children `ks.kids v` of the
instrumented run, which erases to the plain run); in particular a vertex
with no such neighbors has `dp[v][0] = 0` and `dp[v][1] = weights[v]`. -/
theorem c3_dp_recurrences (adj : List (List Nat)) (w : List Int)
    (ch : List (Bool × Bool)) (fuel : Nat) (hwf : wfAdj adj)
    (s : DPState) (r : Int)
    (h : dp_solve fuel adj w ch 0 (initState adj.length) = some (s, r))
    (v : Nat) (hv : getB s.visited v = true) :
    ∃ ks : DPStateK,
      dp_solveK fuel adj w ch 0 (initStateK adj.length) = some (ks, r) ∧
      eraseK ks = s ∧
      getI s.dp0 v = kidsSum0 ks v ∧
      getI s.dp1 v = getI w v + kidsSum1 ks v ∧
      (getL ks.kids v = [] → getI s.dp0 v = 0 ∧ getI s.dp1 v = getI w v) := by
  have herase : eraseK (initStateK adj.length) = initState adj.length := rfl
  have hK := dp_solveK_erase fuel adj w ch 0 (initStateK adj.length)
  rw [herase] at hK
  rw [hK] at h
  cases hks : dp_solveK fuel adj w ch 0 (initStateK adj.length) with
  | none =>
    rw [hks] at h
    exact absurd h (by simp)
  | some p =>
    obtain ⟨ks, rk⟩ := p
    rw [hks] at h
    have hp : some (eraseK ks, rk) = some (s, r) := h
    have hes : eraseK ks = s := congrArg Prod.fst (Option.some.inj hp)
    have hrr : rk = r := congrArg Prod.snd (Option.some.inj hp)
    obtain ⟨hgE, _, _⟩ := dp_solveK_invariant adj w ch hwf fuel 0
      (initStateK adj.length) ks rk (goodK_init adj w) hks
    have hvk : getB ks.visited v = true := by
      rw [show ks.visited = s.visited from congrArg DPState.visited hes]
      exact hv
    obtain ⟨hkids_vis, hrec0, hrec1⟩ := hgE.2.2.2.2.1 v hvk
    refine ⟨ks, by rw [hrr], hes, ?_, ?_, ?_⟩
    · rw [← hes]
      exact hrec0
    · rw [← hes]
      exact hrec1
    · intro hnil
      have hz0 : kidsSum0 ks v = 0 := by
        unfold kidsSum0
        rw [hnil]
        rfl
      have hz1 : kidsSum1 ks v = 0 := by
        unfold kidsSum1
        rw [hnil]
        rfl
      constructor
      · rw [← hes]
        show getI ks.dp0 v = 0
        rw [hrec0, hz0]
      · rw [← hes]
        show getI ks.dp1 v = getI w v
        rw [hrec1, hz1]
        ring

/-- Witness for C3: the single-edge run, checked at the root vertex. -/
theorem c3_witness :
    wfAdj [[1], [0]] ∧
    (∃ ks : DPStateK,
      dp_solveK 3 [[1], [0]] [5, 3] (List.replicate 2 (false, false)) 0
          (initStateK 2) = some (ks, 5) ∧
      eraseK ks = ⟨[3, 0], [5, 3], [true, true]⟩ ∧
      getI (⟨[3, 0], [5, 3], [true, true]⟩ : DPState).dp0 0 = kidsSum0 ks 0 ∧
      getI (⟨[3, 0], [5, 3], [true, true]⟩ : DPState).dp1 0 =
        getI [5, 3] 0 + kidsSum1 ks 0 ∧
      (getL ks.kids 0 = [] →
        getI (⟨[3, 0], [5, 3], [true, true]⟩ : DPState).dp0 0 = 0 ∧
        getI (⟨[3, 0], [5, 3], [true, true]⟩ : DPState).dp1 0 = getI [5, 3] 0)) :=
  ⟨by unfold wfAdj; decide,
   c3_dp_recurrences [[1], [0]] [5, 3] (List.replicate 2 (false, false)) 3
     (by unfold wfAdj; decide) ⟨[3, 0], [5, 3], [true, true]⟩ 5 rfl 0 rfl⟩

end MWIS
